import Mathlib

/-!
Verification of the core algorithms of `Translations/make_translation.py`
(IronOS translation compiler): the symbol-index codec
(`get_bytes_from_font_index`), the glyph rasterizer (`get_cjk_glyph`), the
symbol allocation table builder (`get_font_map_per_font`,
`get_font_map_and_table`) and the string-table suffix-merge compactor
(the core of `get_translation_strings_and_indices_text`).

Symbols (single characters) are modelled as their Unicode code points
(`Nat`); byte strings are modelled as `List Nat` of byte values.
-/

namespace MakeTranslation

/-- A symbol: one atomic character, identified by its code point. -/
abbrev Symbol := Nat

/-- A byte string (each entry is one byte value). -/
abbrev ByteSeq := List Nat

/-- Errors raised (as Python `ValueError` / `KeyError`) by the core. -/
inductive MkErr where
  /-- `get_bytes_from_font_index`: "page value out of range" -/
  | pageOutOfRange
  /-- `get_bytes_from_font_index`: "value is out of range" (defensive) -/
  | valueOutOfRange
  /-- `get_font_map_per_font`: "`text_list` contains duplicated symbols" -/
  | duplicateSymbols
  /-- `get_font_map_per_font`: first font is not the ASCII basic font -/
  | wrongBaseline
  /-- `get_font_map_per_font`: "too many used symbols for this version" -/
  | tooManySymbols
  /-- `get_font_map_per_font`: "Symbols not found in specified fonts" -/
  | symbolsNotFound
deriving DecidableEq

instance {ε α : Type} [DecidableEq ε] [DecidableEq α] : DecidableEq (Except ε α)
  | .error e, .error f =>
    match decEq e f with
    | .isTrue h => .isTrue (by rw [h])
    | .isFalse h => .isFalse (by intro hh; cases hh; exact h rfl)
  | .error _, .ok _ => .isFalse (by intro hh; cases hh)
  | .ok _, .error _ => .isFalse (by intro hh; cases hh)
  | .ok x, .ok y =>
    match decEq x y with
    | .isTrue h => .isTrue (by rw [h])
    | .isFalse h => .isFalse (by intro hh; cases hh; exact h rfl)

/-! ## Symbol index codec (`get_bytes_from_font_index`)

The source also raises "index must be positive" for a negative `index`;
with a `Nat` index that branch is unrepresentable and is omitted. -/

/-- Converts the font table index into its corresponding bytes.
Embeds `get_bytes_from_font_index` (make_translation.py lines 240-288). -/
def get_bytes_from_font_index (index : Nat) : Except MkErr ByteSeq :=
  let page := (index + 0x0E) / 0xFF
  if page > 0x0F then
    .error .pageOutOfRange
  else if page = 0 then
    .ok [index]
  else
    -- Into extended range: leader is 0xFz where z is the page number,
    -- following char is the remainder.
    let leader := page + 0xF0
    let value := (index + 0x0E) % 0xFF + 0x01
    if leader > 0xFF ∨ value > 0xFF then
      .error .valueOutOfRange
    else
      .ok [leader, value]

/-- The number of representable font indices: `get_bytes_from_font_index`
succeeds exactly on `index < 4066` (pages 0 to 15). -/
def MAX_FONT_INDEX : Nat := 4066

/-- The decoding inverse of the codec.  The firmware does not need it; the
spec requires it to exist so that encoding is a lossless bijection, so it
is constructed here for verification. -/
def decode_font_index : ByteSeq → Option Nat
  | [b] => if b ≤ 0xF0 then some b else none
  | [l, v] =>
    if 0xF1 ≤ l ∧ l ≤ 0xFF ∧ 0x01 ≤ v ∧ v ≤ 0xFF then
      some ((l - 0xF0) * 0xFF + v - 0x01 - 0x0E)
    else none
  | _ => none

/-- C3: the codec follows the spec's algorithm: with
`page = (o + 14) div 255`, it fails when `page > 15`, returns the single
byte `o` when `page = 0`, and otherwise returns the two bytes
`0xF0 + page` and `((o + 14) mod 255) + 1`.  The defensive leader/value
range check never fires (both bytes are proved to fit in a byte). -/
theorem codec_follows_spec_algorithm (o : Nat) :
    get_bytes_from_font_index o =
      if (o + 14) / 255 > 15 then .error .pageOutOfRange
      else if (o + 14) / 255 = 0 then .ok [o]
      else .ok [0xF0 + (o + 14) / 255, (o + 14) % 255 + 1] := by
  have hmod : (o + 14) % 255 < 255 := Nat.mod_lt _ (by omega)
  simp only [get_bytes_from_font_index]
  split_ifs with h1 h2 h3
  · rfl
  · rfl
  · exfalso; rcases h3 with h3 | h3 <;> omega
  · have hc : (o + 14) / 255 + 0xF0 = 0xF0 + (o + 14) / 255 := Nat.add_comm _ _
    rw [hc]

/-- Helper for C5: the round trip decode-after-encode is the identity on
the representable range. -/
theorem decode_encode_roundtrip (o : Nat) (ho : o < MAX_FONT_INDEX) :
    ∃ bs, get_bytes_from_font_index o = .ok bs ∧ decode_font_index bs = some o := by
  unfold MAX_FONT_INDEX at ho
  by_cases h240 : o ≤ 240
  · refine ⟨[o], ?_, ?_⟩
    · have hz : (o + 14) / 255 = 0 := by omega
      simp only [get_bytes_from_font_index]
      rw [if_neg (by omega), if_pos hz]
    · simp only [decode_font_index]
      rw [if_pos (by omega)]
  · have hpage1 : 1 ≤ (o + 14) / 255 := by omega
    have hpage15 : (o + 14) / 255 ≤ 15 := by omega
    have hmod : (o + 14) % 255 < 255 := Nat.mod_lt _ (by omega)
    refine ⟨[(o + 14) / 255 + 0xF0, (o + 14) % 255 + 0x01], ?_, ?_⟩
    · simp only [get_bytes_from_font_index]
      rw [if_neg (by omega), if_neg (by omega), if_neg (by omega)]
    · simp only [decode_font_index]
      rw [if_pos (by omega)]
      have hdm := Nat.div_add_mod (o + 14) 255
      congr 1
      omega

/-- C5: for every ordinal below the codec's representable range
(`MAX_FONT_INDEX = 4066`), encoding succeeds, the constructed decoder
inverts it, and the encoding is injective on that range: a lossless
bijection onto its image. -/
theorem codec_lossless_bijection (o : Nat) (ho : o < MAX_FONT_INDEX) :
    (∃ bs, get_bytes_from_font_index o = .ok bs ∧ decode_font_index bs = some o) ∧
    (∀ p, p < MAX_FONT_INDEX → get_bytes_from_font_index p = get_bytes_from_font_index o → p = o) := by
  refine ⟨decode_encode_roundtrip o ho, ?_⟩
  intro p hp hpo
  obtain ⟨bso, heo, hdo⟩ := decode_encode_roundtrip o ho
  obtain ⟨bsp, hep, hdp⟩ := decode_encode_roundtrip p hp
  rw [hpo, heo] at hep
  cases hep
  rw [hdo] at hdp
  cases hdp
  rfl

/-- C5 witness: the codec round trip and injectivity at ordinal 300. -/
theorem codec_lossless_bijection_witness :
    ∃ bs, get_bytes_from_font_index 300 = .ok bs ∧ decode_font_index bs = some 300 :=
  (codec_lossless_bijection 300 (by decide)).1

/-- C4 counterexample: `encode(0)` is the single byte `0x00` (the
reserved terminator byte), not `0x02` as the claim states. -/
theorem codec_encode_zero_counterexample :
    get_bytes_from_font_index 0 = .ok [0x00] ∧
    get_bytes_from_font_index 0 ≠ .ok [0x02] := by
  constructor <;> decide

/-- C4 (amended): `encode(2) = [0x02]` — ordinal 2, the lowest
allocatable ordinal, encodes as byte `0x02`, while `encode(0) = [0x00]` —
and the mapping skips every leader+0x00 combination: whenever an encoding
is two bytes, the leader is in `0xF1..0xFF` and the value byte is never
`0x00`. -/
theorem codec_boundary_amended :
    get_bytes_from_font_index 2 = .ok [0x02] ∧
    get_bytes_from_font_index 0 = .ok [0x00] ∧
    (∀ o l v, get_bytes_from_font_index o = .ok [l, v] →
      0xF1 ≤ l ∧ l ≤ 0xFF ∧ v ≠ 0x00) := by
  refine ⟨by decide, by decide, ?_⟩
  intro o l v h
  simp only [get_bytes_from_font_index] at h
  split_ifs at h with h1 h2 h3
  · simp at h
  · obtain ⟨hl, hv⟩ := h
    have hmod : (o + 14) % 255 < 255 := Nat.mod_lt _ (by omega)
    refine ⟨by omega, by omega, by omega⟩

/-- C4 witness (for the amended universally-quantified part): ordinal 241
encodes as the two bytes `0xF1 0x01`, whose leader is in range and whose
value byte is nonzero. -/
theorem codec_boundary_amended_witness :
    0xF1 ≤ 0xF1 ∧ 0xF1 ≤ 0xFF ∧ (0x01 : Nat) ≠ 0x00 :=
  codec_boundary_amended.2.2 241 0xF1 0x01 (by decide)

/-! ## Glyph rasterizer / packer (`get_cjk_glyph`)

`get_cjk_glyph` reads the glyph (`data`, bounding box) from the external
BDF font; the packing core is embedded as a function of that data.  The
target cell is 12 wide (`dst_w`) by 16 tall (`dst_h`). -/

/-- One target cell of the glyph: `get_cell` inside `get_cjk_glyph`
(make_translation.py lines 207-222).  The source data is a per-row list
of ints, row 0 the bottom-most row, LSB the right-most pixel; `(x, y)`
has its origin at the top-left of the 12x16 target cell. -/
def get_cell (data : List Nat) (src_left src_bottom src_w src_h : Int)
    (x y : Int) : Bool :=
  -- Adjust x coordinates by actual bounding box.
  let adj_x := x - src_left
  if adj_x < 0 ∨ adj_x ≥ src_w then false
  else
    -- Adjust y coordinates by actual bounding box, then place the glyph
    -- baseline 3px above the bottom edge (16 = dst_h).
    let adj_y := y - (16 - src_h - src_bottom - 3)
    if adj_y < 0 ∨ adj_y ≥ src_h then false
    else Nat.testBit (data.getD (src_h - adj_y - 1).toNat 0) (src_w - adj_x - 1).toNat

/-- The 24-byte packed bitmap produced by `get_cjk_glyph` (lines 229-237):
two 8-row blocks of 12 columns, one byte per column per block, bit 0 the
top-most row of the block. -/
def get_cjk_glyph_bytes (data : List Nat) (src_left src_bottom src_w src_h : Int) :
    List Nat :=
  (List.range 2).flatMap (fun (block : Nat) =>
    (List.range 12).map (fun (c : Nat) =>
      (List.range 8).foldl (fun (b : Nat) (r : Nat) =>
        if get_cell data src_left src_bottom src_w src_h (c : Int)
            ((r : Int) + 8 * (block : Int)) then
          b ||| (1 <<< r)
        else b) 0))

/-- Helper: a cell is unlit whenever the translated bounding box misses
the whole 12x16 cell. -/
theorem get_cell_out_of_cell (data : List Nat) (l b w h : Int) (x y : Int)
    (hx0 : 0 ≤ x) (hx : x < 12) (hy0 : 0 ≤ y) (hy : y < 16)
    (hout : 12 ≤ l ∨ l + w ≤ 0 ∨ 16 ≤ 16 - h - b - 3 ∨ (16 - h - b - 3) + h ≤ 0) :
    get_cell data l b w h x y = false := by
  simp only [get_cell]
  by_cases hg1 : x - l < 0 ∨ x - l ≥ w
  · rw [if_pos hg1]
  · rw [if_neg hg1, if_pos (by rcases hout with h1 | h1 | h1 | h1 <;> omega)]

/-- Helper: a fold that ORs in bits guarded by an always-false predicate
stays zero. -/
theorem foldl_or_zero (g : Nat → Bool) :
    ∀ L : List Nat, (∀ r ∈ L, g r = false) →
      L.foldl (fun acc r => if g r then acc ||| (1 <<< r) else acc) 0 = 0 := by
  intro L
  induction L with
  | nil => intro _; rfl
  | cons x xs ih =>
    intro hall
    have hx := hall x (List.mem_cons_self _ _)
    simp only [List.foldl_cons, hx, if_false]
    exact ih (fun r hr => hall r (List.mem_cons_of_mem _ hr))

/-- C9: for a source bounding box fully outside the 12x16 target cell
(after the horizontal bounding-box translation and the 3-pixel-above-
bottom vertical anchoring), the packed glyph is the all-zero 24-byte
bitmap. -/
theorem pack_glyph_out_of_bounds (data : List Nat) (l b w h : Int)
    (hout : 12 ≤ l ∨ l + w ≤ 0 ∨ 16 ≤ 16 - h - b - 3 ∨ (16 - h - b - 3) + h ≤ 0) :
    get_cjk_glyph_bytes data l b w h = List.replicate 24 0 := by
  have hcol : ∀ block : Nat, block < 2 → ∀ c ∈ List.range 12,
      (List.range 8).foldl (fun (acc : Nat) (r : Nat) =>
        if get_cell data l b w h (c : Int)
            ((r : Int) + 8 * (block : Int)) then
          acc ||| (1 <<< r)
        else acc) 0 = 0 := by
    intro block hblock c hc
    have hc12 : c < 12 := List.mem_range.mp hc
    refine foldl_or_zero _ _ ?_
    intro r hr
    have hr8 : r < 8 := List.mem_range.mp hr
    refine get_cell_out_of_cell data l b w h _ _ ?_ ?_ ?_ ?_ hout <;> omega
  have hrange2 : List.range 2 = [0, 1] := rfl
  simp only [get_cjk_glyph_bytes, hrange2, List.flatMap_cons, List.flatMap_nil,
    List.append_nil]
  rw [List.map_congr_left (hcol 0 (by omega)), List.map_congr_left (hcol 1 (by omega))]
  rfl

/-- C9 witness: a bounding box entirely to the right of the cell packs to
the all-zero bitmap. -/
theorem pack_glyph_out_of_bounds_witness :
    get_cjk_glyph_bytes [3, 7] 100 0 5 5 = List.replicate 24 0 :=
  pack_glyph_out_of_bounds [3, 7] 100 0 5 5 (Or.inl (by decide))

/-! ## Symbol allocation table builder
(`get_font_map_per_font`, `get_font_map_and_table`)

The concrete font tables live in `font_tables.py`, which is not part of
the verified sources; per the spec a font source only needs to supply
glyph lookups.  The environment below is therefore modelled from the
spec. -/

/-- Modelled from the spec: name of the designated baseline (non-CJK)
ASCII font source, `font_tables.NAME_ASCII_BASIC`. -/
def NAME_ASCII_BASIC : String := "ascii_basic"

/-- Modelled from the spec: name of the CJK font source,
`font_tables.NAME_CJK`. -/
def NAME_CJK : String := "cjk"

/-- Modelled from the spec: the glyph lookups provided by
`font_tables.get_font_maps_for_name` (large 12x16 and small 6x8 table
fonts) and by the CJK BDF font (large only). -/
structure FontEnv where
  font12 : String → Symbol → Option ByteSeq
  font06 : String → Symbol → Option ByteSeq
  cjkGlyph : Symbol → Option ByteSeq

/-- Whether (and how) one font source resolves one symbol: the body of
the `for sym in text_list` loop of `get_font_map_per_font` (lines
362-372).  A CJK resolution carries no small bitmap (`font06_line =
None`); a table font resolves only when both its `font12` and `font06`
dicts contain the symbol (a `KeyError` skips the symbol). -/
def resolveSym (env : FontEnv) (font : String) (sym : Symbol) :
    Option (ByteSeq × Option ByteSeq) :=
  if font = NAME_CJK then
    (env.cjkGlyph sym).map (fun g => (g, none))
  else
    match env.font12 font sym, env.font06 font sym with
    | some f12, some f06 => some (f12, some f06)
    | _, _ => none

/-- One font source's pass over `text_list` (lines 359-376): symbols
still pending that the source resolves are added to this font's
`font12_map`, `font06_map` and `sym_list` and removed from the pending
set.  Returns the three per-font collections and the new pending set. -/
def fontPass (resolve : Symbol → Option (ByteSeq × Option ByteSeq)) :
    List Symbol → List Symbol →
    List (Symbol × ByteSeq) × List (Symbol × Option ByteSeq) × List Symbol × List Symbol
  | [], pending => ([], [], [], pending)
  | sym :: rest, pending =>
    if sym ∈ pending then
      match resolve sym with
      | some (f12, f06) =>
        let t := fontPass resolve rest (pending.erase sym)
        ((sym, f12) :: t.1, (sym, f06) :: t.2.1, sym :: t.2.2.1, t.2.2.2)
      | none => fontPass resolve rest pending
    else fontPass resolve rest pending

/-- The `for font in fonts` loop of `get_font_map_per_font` (lines
337-379), collecting the per-font maps in font order. -/
def passAll (env : FontEnv) (fonts : List String) (text_list pending : List Symbol) :
    List (List (Symbol × ByteSeq)) × List (List (Symbol × Option ByteSeq)) ×
    List (List Symbol) × List Symbol :=
  match fonts with
  | [] => ([], [], [], pending)
  | font :: rest =>
    let t := fontPass (resolveSym env font) text_list pending
    let ts := passAll env rest text_list t.2.2.2
    (t.1 :: ts.1, t.2.1 :: ts.2.1, t.2.2.1 :: ts.2.2.1, ts.2.2.2)

/-- Result of `get_font_map_per_font`. -/
structure FontMapsPerFont where
  font12_maps : List (List (Symbol × ByteSeq))
  font06_maps : List (List (Symbol × Option ByteSeq))
  sym_lists : List (List Symbol)

/-- Embeds `get_font_map_per_font` (lines 312-383): duplicate check,
baseline-font check, capacity check (at most `0x10 * 0xFF - 15 - 2 =
4063` symbols), then the per-font resolution passes; fails when any
symbol is left pending. -/
def get_font_map_per_font (env : FontEnv) (text_list : List Symbol)
    (fonts : List String) : Except MkErr FontMapsPerFont :=
  if ¬ text_list.Nodup then
    .error .duplicateSymbols
  else if fonts.head? ≠ some NAME_ASCII_BASIC then
    .error .wrongBaseline
  else if text_list.length > 0x10 * 0xFF - 15 - 2 then
    .error .tooManySymbols
  else
    let t := passAll env fonts text_list text_list
    if t.2.2.2 ≠ [] then .error .symbolsNotFound
    else .ok ⟨t.1, t.2.1, t.2.2.1⟩

/-- The digits forced to the front of the candidate list
(`forced_first_symbols` in `get_font_map_and_table`, line 393): the code
points of `"0" .. "9"`. -/
def forced_first_symbols : List Symbol :=
  [48, 49, 50, 51, 52, 53, 54, 55, 56, 57]

/-- Result of `get_font_map_and_table`. -/
structure FontTableResult where
  sym_list : List Symbol
  font12_map : List (Symbol × ByteSeq)
  font06_map : List (Symbol × Option ByteSeq)
  symbol_map : List (Symbol × ByteSeq)

/-- Embeds `get_font_map_and_table` (lines 386-428): digits are moved to
the front of the candidate list, fonts are resolved per font, the
per-font maps are merged in font order (their key sets are disjoint by
construction, so merge order is immaterial), symbols with both bitmap
sizes are placed before large-only symbols, and byte codes are assigned
densely starting at font index 2 (`{"\n": bytes([1])}` pre-seeded, 0 is
the terminator and 1 the newline).  Every symbol of the candidate list
has an entry in the merged `font06_map` when resolution succeeded, so
the lookup below cannot miss. -/
def get_font_map_and_table (env : FontEnv) (text_list : List Symbol)
    (fonts : List String) : Except MkErr FontTableResult := do
  let text_list' := forced_first_symbols ++
    text_list.filter (fun x => x ∉ forced_first_symbols)
  let fm ← get_font_map_per_font env text_list' fonts
  let font12_map := fm.font12_maps.flatten
  let font06_map := fm.font06_maps.flatten
  let sym_list_both_fonts := text_list'.filter
    (fun sym => !(decide (font06_map.lookup sym = some none)))
  let sym_list_large_only := text_list'.filter
    (fun sym => decide (font06_map.lookup sym = some none))
  let sym_list := sym_list_both_fonts ++ sym_list_large_only
  let entries ← sym_list.enum.mapM (fun p =>
    (get_bytes_from_font_index (p.1 + 2)).map (fun bs => (p.2, bs)))
  pure ⟨sym_list, font12_map, font06_map, (10, [1]) :: entries⟩

/-- C6: whenever the candidate symbols are distinct and the baseline font
is first, a symbol count above the cap of `4063 = 0x10 * 0xFF - 15 - 2`
allocatable ordinals (two of the `16 * 255 - 15` codes are reserved for
the terminator and the newline) makes the builder fail with the capacity
error, whatever the font sources provide. -/
theorem builder_capacity_error (env : FontEnv) (text_list : List Symbol)
    (fonts : List String) (hnd : text_list.Nodup)
    (hbase : fonts.head? = some NAME_ASCII_BASIC)
    (hlen : text_list.length > 4063) :
    get_font_map_per_font env text_list fonts = .error .tooManySymbols := by
  simp only [get_font_map_per_font]
  rw [if_neg (not_not_intro hnd), if_neg (by simp [hbase]), if_pos (by omega)]

/-- C6 witness: 4065 distinct symbols under a single (baseline) font
source raise the capacity error. -/
theorem builder_capacity_error_witness :
    get_font_map_per_font
      ⟨fun _ s => some [s], fun _ s => some [s], fun _ => none⟩
      (List.range 4065) [NAME_ASCII_BASIC] = .error .tooManySymbols :=
  builder_capacity_error _ (List.range 4065) [NAME_ASCII_BASIC]
    (List.nodup_range 4065) rfl (by rw [List.length_range]; omega)

/-- Helper: inverting a successful `Except` bind. -/
theorem except_bind_eq_ok {ε α β : Type} {m : Except ε α} {k : α → Except ε β}
    {r : β} (h : (m >>= k) = .ok r) : ∃ a, m = .ok a ∧ k a = .ok r := by
  cases m with
  | error e => exact absurd h (by intro hh; cases hh)
  | ok a => exact ⟨a, rfl, h⟩

/-- Helper: the shape of a successful run of `get_font_map_and_table`:
the digit-fronted candidate list, the merged small-font map, the
both-sizes-first symbol list and the densely assigned byte codes. -/
theorem get_font_map_and_table_ok (env : FontEnv) (text_list : List Symbol)
    (fonts : List String) (res : FontTableResult)
    (hok : get_font_map_and_table env text_list fonts = .ok res) :
    ∃ fm entries,
      get_font_map_per_font env
        (forced_first_symbols ++ text_list.filter (fun x => x ∉ forced_first_symbols))
        fonts = .ok fm ∧
      res.font06_map = fm.font06_maps.flatten ∧
      res.sym_list =
        (forced_first_symbols ++ text_list.filter (fun x => x ∉ forced_first_symbols)).filter
          (fun sym => !(decide (fm.font06_maps.flatten.lookup sym = some none))) ++
        (forced_first_symbols ++ text_list.filter (fun x => x ∉ forced_first_symbols)).filter
          (fun sym => decide (fm.font06_maps.flatten.lookup sym = some none)) ∧
      res.sym_list.enum.mapM (fun p =>
        (get_bytes_from_font_index (p.1 + 2)).map (fun bs => (p.2, bs))) = .ok entries ∧
      res.symbol_map = (10, [1]) :: entries := by
  unfold get_font_map_and_table at hok
  dsimp only at hok
  obtain ⟨fm, hfm, hok2⟩ := except_bind_eq_ok hok
  obtain ⟨entries, hmm, hok3⟩ := except_bind_eq_ok hok2
  simp only [pure, Except.pure, Except.ok.injEq] at hok3
  subst hok3
  exact ⟨fm, entries, hfm, rfl, rfl, hmm, rfl⟩

/-- Helper: a successful indexed lookup yields a member of the list. -/
theorem mem_of_getElem_eq_some {α : Type} {l : List α} {n : Nat} {a : α}
    (h : l[n]? = some a) : a ∈ l := by
  obtain ⟨hlt, hget⟩ := List.getElem?_eq_some.mp h
  rw [← hget]
  exact List.getElem_mem hlt

/-- C8: in the final symbol ordering, the symbols with both bitmap sizes
form the initial segment and the large-only symbols the final segment,
each group keeping the relative order of the (digit-fronted) candidate
list; consequently no large-only symbol precedes any both-size symbol:
whenever position `j` holds a both-size symbol, so does every position
`i ≤ j`. -/
theorem both_sizes_before_large_only (env : FontEnv) (text_list : List Symbol)
    (fonts : List String) (res : FontTableResult)
    (hok : get_font_map_and_table env text_list fonts = .ok res) :
    (res.sym_list.filter
        (fun sym => !(decide (res.font06_map.lookup sym = some none))) =
      (forced_first_symbols ++ text_list.filter (fun x => x ∉ forced_first_symbols)).filter
        (fun sym => !(decide (res.font06_map.lookup sym = some none)))) ∧
    (res.sym_list.filter
        (fun sym => decide (res.font06_map.lookup sym = some none)) =
      (forced_first_symbols ++ text_list.filter (fun x => x ∉ forced_first_symbols)).filter
        (fun sym => decide (res.font06_map.lookup sym = some none))) ∧
    (∀ i j (hi : i < res.sym_list.length) (hj : j < res.sym_list.length), i ≤ j →
      res.font06_map.lookup (res.sym_list.get ⟨j, hj⟩) ≠ some none →
      res.font06_map.lookup (res.sym_list.get ⟨i, hi⟩) ≠ some none) := by
  obtain ⟨fm, entries, hfm, h06, hsym, hmapm, hmap⟩ :=
    get_font_map_and_table_ok env text_list fonts res hok
  rw [h06]
  refine ⟨?_, ?_, ?_⟩
  · rw [hsym, List.filter_append, List.filter_filter, List.filter_filter]
    simp
  · rw [hsym, List.filter_append, List.filter_filter, List.filter_filter]
    simp
  · intro i j hi hj hij hjboth
    have hjq : res.sym_list[j]? = some (res.sym_list.get ⟨j, hj⟩) := by
      simp [List.getElem?_eq_getElem]
    have hiq : res.sym_list[i]? = some (res.sym_list.get ⟨i, hi⟩) := by
      simp [List.getElem?_eq_getElem]
    generalize hjdef : res.sym_list.get ⟨j, hj⟩ = sj at hjq hjboth
    generalize hidef : res.sym_list.get ⟨i, hi⟩ = si at hiq ⊢
    rw [hsym] at hjq hiq
    have hlenj : j <
        ((forced_first_symbols ++ text_list.filter (fun x => x ∉ forced_first_symbols)).filter
          (fun sym => !(decide (fm.font06_maps.flatten.lookup sym = some none)))).length := by
      by_contra hge
      push_neg at hge
      rw [List.getElem?_append_right hge] at hjq
      have hmem := mem_of_getElem_eq_some hjq
      have hB := (List.mem_filter.mp hmem).2
      simp only [decide_eq_true_eq] at hB
      exact hjboth hB
    have hleni : i <
        ((forced_first_symbols ++ text_list.filter (fun x => x ∉ forced_first_symbols)).filter
          (fun sym => !(decide (fm.font06_maps.flatten.lookup sym = some none)))).length :=
      lt_of_le_of_lt hij hlenj
    rw [List.getElem?_append, if_pos hleni] at hiq
    have hmem := mem_of_getElem_eq_some hiq
    have hA := (List.mem_filter.mp hmem).2
    simp only [Bool.not_eq_true', decide_eq_false_iff_not] at hA
    exact hA

/-- Helper: inverting a successful `get_font_map_per_font`: the returned
maps are exactly the `passAll` collections. -/
theorem get_font_map_per_font_ok (env : FontEnv) (text_list : List Symbol)
    (fonts : List String) (fm : FontMapsPerFont)
    (h : get_font_map_per_font env text_list fonts = .ok fm) :
    fm = ⟨(passAll env fonts text_list text_list).1,
          (passAll env fonts text_list text_list).2.1,
          (passAll env fonts text_list text_list).2.2.1⟩ := by
  simp only [get_font_map_per_font] at h
  split_ifs at h with h1 h2 h3 h4
  simp only [Except.ok.injEq] at h
  exact h.symm

/-- Helper: a run of symbols at the front of the candidate list that are
all pending and all resolved by the current font source is taken whole
by `fontPass`, in order. -/
theorem fontPass_resolved_prefix (resolve : Symbol → Option (ByteSeq × Option ByteSeq))
    (g : Symbol → ByteSeq × Option ByteSeq) :
    ∀ (ds rest pending : List Symbol), ds.Nodup → (∀ d ∈ ds, d ∈ pending) →
      (∀ d ∈ ds, resolve d = some (g d)) →
      fontPass resolve (ds ++ rest) pending =
        (ds.map (fun d => (d, (g d).1)) ++
           (fontPass resolve rest (ds.foldl List.erase pending)).1,
         ds.map (fun d => (d, (g d).2)) ++
           (fontPass resolve rest (ds.foldl List.erase pending)).2.1,
         ds ++ (fontPass resolve rest (ds.foldl List.erase pending)).2.2.1,
         (fontPass resolve rest (ds.foldl List.erase pending)).2.2.2) := by
  intro ds
  induction ds with
  | nil => intro rest pending _ _ _; simp
  | cons d ds ih =>
    intro rest pending hnd hpend hres
    have hd : d ∈ pending := hpend d (List.mem_cons_self _ _)
    have hgd : resolve d = some (g d) := hres d (List.mem_cons_self _ _)
    have hdd : d ∉ ds := (List.nodup_cons.mp hnd).1
    have hih := ih rest (pending.erase d) (List.nodup_cons.mp hnd).2
      (fun x hx => (List.mem_erase_of_ne (fun hxd => hdd (by rw [hxd] at hx; exact hx))).mpr
        (hpend x (List.mem_cons_of_mem _ hx)))
      (fun x hx => hres x (List.mem_cons_of_mem _ hx))
    simp only [List.cons_append, fontPass, if_pos hd, hgd, List.append_eq, hih,
      List.map_cons, List.foldl_cons]

/-- Helper: looking up a digit in an association list that starts with
one entry per digit finds that entry. -/
theorem lookup_map_prefix_self {α : Type} (f : Symbol → α) (tail : List (Symbol × α))
    (d : Symbol) (hd : d ∈ forced_first_symbols) :
    ((forced_first_symbols.map (fun x => (x, f x))) ++ tail).lookup d = some (f d) := by
  fin_cases hd <;> simp [forced_first_symbols, List.lookup]

/-- C7: when the builder succeeds with the baseline ASCII font first and
(modelled from the spec, the ASCII table living outside the verified
sources) that baseline supplies both bitmap sizes for the digits, the
digits `"0" .. "9"` (code points 48-57) are moved to the front of the
candidate list — they are the first ten entries of the final symbol
list — and they receive the ten lowest allocated ordinals 2 to 11. -/
theorem digits_first_and_lowest_ordinals (env : FontEnv) (text_list : List Symbol)
    (fonts : List String) (res : FontTableResult)
    (hok : get_font_map_and_table env text_list fonts = .ok res)
    (hbase : fonts.head? = some NAME_ASCII_BASIC)
    (hdig : ∀ d ∈ forced_first_symbols,
      (env.font12 NAME_ASCII_BASIC d).isSome ∧ (env.font06 NAME_ASCII_BASIC d).isSome) :
    res.sym_list.take 10 = forced_first_symbols ∧
    ∀ i, i < 10 → ∃ bs, get_bytes_from_font_index (i + 2) = .ok bs ∧
      res.symbol_map.lookup (48 + i) = some bs := by
  obtain ⟨fm, entries, hfm, h06, hsym, hmapm, hmap⟩ :=
    get_font_map_and_table_ok env text_list fonts res hok
  obtain ⟨restF, rfl⟩ : ∃ restF, fonts = NAME_ASCII_BASIC :: restF := by
    cases fonts with
    | nil => simp at hbase
    | cons f restF =>
      simp only [List.head?_cons, Option.some.injEq] at hbase
      exact ⟨restF, by rw [hbase]⟩
  have hfmv := get_font_map_per_font_ok env _ _ fm hfm
  have hcjk : ¬ (NAME_ASCII_BASIC = NAME_CJK) := by decide
  have hres : ∀ d ∈ forced_first_symbols,
      resolveSym env NAME_ASCII_BASIC d =
        some ((env.font12 NAME_ASCII_BASIC d).getD [],
              some ((env.font06 NAME_ASCII_BASIC d).getD [])) := by
    intro d hd
    obtain ⟨h12, h6⟩ := hdig d hd
    obtain ⟨a, ha⟩ := Option.isSome_iff_exists.mp h12
    obtain ⟨b, hb⟩ := Option.isSome_iff_exists.mp h6
    simp [resolveSym, hcjk, ha, hb]
  have hpass := fontPass_resolved_prefix (resolveSym env NAME_ASCII_BASIC)
    (fun d => ((env.font12 NAME_ASCII_BASIC d).getD [],
               some ((env.font06 NAME_ASCII_BASIC d).getD [])))
    forced_first_symbols (text_list.filter (fun x => x ∉ forced_first_symbols))
    (forced_first_symbols ++ text_list.filter (fun x => x ∉ forced_first_symbols))
    (by decide) (fun d hd => List.mem_append_left _ hd) hres
  obtain ⟨tail06, hflat⟩ : ∃ tail06, fm.font06_maps.flatten =
      forced_first_symbols.map
        (fun d => (d, some ((env.font06 NAME_ASCII_BASIC d).getD []))) ++ tail06 := by
    rw [hfmv]
    simp only [passAll, hpass, List.flatten_cons]
    exact ⟨_, by rw [List.append_assoc]⟩
  have hlook : ∀ d ∈ forced_first_symbols, fm.font06_maps.flatten.lookup d =
      some (some ((env.font06 NAME_ASCII_BASIC d).getD [])) := by
    intro d hd
    rw [hflat]
    exact lookup_map_prefix_self _ tail06 d hd
  have hforcedfilter : forced_first_symbols.filter
      (fun sym => !(decide (fm.font06_maps.flatten.lookup sym = some none))) =
      forced_first_symbols := by
    refine List.filter_eq_self.mpr ?_
    intro d hd
    simp [hlook d hd]
  have hsymdec : res.sym_list = forced_first_symbols ++
      ((text_list.filter (fun x => x ∉ forced_first_symbols)).filter
         (fun sym => !(decide (fm.font06_maps.flatten.lookup sym = some none))) ++
       (forced_first_symbols ++ text_list.filter (fun x => x ∉ forced_first_symbols)).filter
         (fun sym => decide (fm.font06_maps.flatten.lookup sym = some none))) := by
    rw [hsym, List.filter_append, hforcedfilter, List.append_assoc]
  constructor
  · rw [hsymdec]
    have h10 : (10 : Nat) = forced_first_symbols.length := rfl
    rw [h10, List.take_left]
  · intro i hi
    have henum : res.sym_list.enum = List.enumFrom 0 forced_first_symbols ++
        List.enumFrom 10
          ((text_list.filter (fun x => x ∉ forced_first_symbols)).filter
             (fun sym => !(decide (fm.font06_maps.flatten.lookup sym = some none))) ++
           (forced_first_symbols ++ text_list.filter (fun x => x ∉ forced_first_symbols)).filter
             (fun sym => decide (fm.font06_maps.flatten.lookup sym = some none))) := by
      rw [hsymdec]
      show List.enumFrom 0 (forced_first_symbols ++ _) = _
      rw [List.enumFrom_append]
      norm_num [forced_first_symbols]
    rw [henum, List.mapM_append] at hmapm
    have hpref : List.mapM (fun p =>
        (get_bytes_from_font_index (p.1 + 2)).map (fun bs => (p.2, bs)))
        (List.enumFrom 0 forced_first_symbols) =
        .ok [(48, [2]), (49, [3]), (50, [4]), (51, [5]), (52, [6]),
             (53, [7]), (54, [8]), (55, [9]), (56, [10]), (57, [11])] := by decide
    obtain ⟨a, ha, h2⟩ := except_bind_eq_ok hmapm
    rw [hpref] at ha
    cases ha
    obtain ⟨b, hb, h3⟩ := except_bind_eq_ok h2
    simp only [pure, Except.pure, Except.ok.injEq] at h3
    subst h3
    rw [hmap]
    interval_cases i <;> exact ⟨_, rfl, by simp [List.lookup]⟩

/-- A concrete font environment for the C7 witness: every symbol has
both bitmap sizes in every table font. -/
def envWitness : FontEnv :=
  ⟨fun _ s => some [s], fun _ s => some [s], fun _ => none⟩

/-- The builder's output on `envWitness`, candidate list `[65]` and the
baseline font alone. -/
def resWitness : FontTableResult :=
  ⟨[48, 49, 50, 51, 52, 53, 54, 55, 56, 57, 65],
   [(48, [48]), (49, [49]), (50, [50]), (51, [51]), (52, [52]), (53, [53]),
    (54, [54]), (55, [55]), (56, [56]), (57, [57]), (65, [65])],
   [(48, some [48]), (49, some [49]), (50, some [50]), (51, some [51]),
    (52, some [52]), (53, some [53]), (54, some [54]), (55, some [55]),
    (56, some [56]), (57, some [57]), (65, some [65])],
   [(10, [1]), (48, [2]), (49, [3]), (50, [4]), (51, [5]), (52, [6]),
    (53, [7]), (54, [8]), (55, [9]), (56, [10]), (57, [11]), (65, [12])]⟩

/-- C7 witness: on the candidate list `[65]` under the baseline font, the
digits head the symbol list and take ordinals 2 to 11. -/
theorem digits_first_and_lowest_ordinals_witness :
    resWitness.sym_list.take 10 = forced_first_symbols ∧
    ∀ i, i < 10 → ∃ bs, get_bytes_from_font_index (i + 2) = .ok bs ∧
      resWitness.symbol_map.lookup (48 + i) = some bs :=
  digits_first_and_lowest_ordinals envWitness [65] [NAME_ASCII_BASIC] resWitness
    rfl rfl (by decide)

/-- C8 witness: the ordering property at the concrete witness input. -/
theorem both_sizes_before_large_only_witness :
    (resWitness.sym_list.filter
        (fun sym => !(decide (resWitness.font06_map.lookup sym = some none))) =
      (forced_first_symbols ++
        ([65] : List Symbol).filter (fun x => x ∉ forced_first_symbols)).filter
        (fun sym => !(decide (resWitness.font06_map.lookup sym = some none)))) ∧
    (resWitness.sym_list.filter
        (fun sym => decide (resWitness.font06_map.lookup sym = some none)) =
      (forced_first_symbols ++
        ([65] : List Symbol).filter (fun x => x ∉ forced_first_symbols)).filter
        (fun sym => decide (resWitness.font06_map.lookup sym = some none))) ∧
    (∀ i j (hi : i < resWitness.sym_list.length) (hj : j < resWitness.sym_list.length),
      i ≤ j →
      resWitness.font06_map.lookup (resWitness.sym_list.get ⟨j, hj⟩) ≠ some none →
      resWitness.font06_map.lookup (resWitness.sym_list.get ⟨i, hi⟩) ≠ some none) :=
  both_sizes_before_large_only envWitness [65] [NAME_ASCII_BASIC] resWitness rfl

/-! ## String table compactor
(the suffix-merge core of `get_translation_strings_and_indices_text`,
lines 759-836; the assembly of `str_table` from the JSON inputs and the
C-source text generation around it are I/O glue outside the core). -/

/-- Python `str.replace` for the two-character pattern `[a, b]`,
replacing left-to-right and non-overlapping with `r`. -/
def replacePair (a b : Symbol) (r : List Symbol) : List Symbol → List Symbol
  | [] => []
  | [x] => [x]
  | x :: y :: rest =>
    if x = a ∧ y = b then r ++ replacePair a b r rest
    else x :: replacePair a b r (y :: rest)

/-- The preprocessing in `convert_string_bytes` (line 467):
`text.replace("\\r", "").replace("\\n", "\n")` — the two-character
escape `\r` (92, 114) is dropped, then `\n` (92, 110) becomes a newline
(code point 10). -/
def preprocess (text : List Symbol) : List Symbol :=
  replacePair 92 110 [10] (replacePair 92 114 [] text)

/-- Conversion of preprocessed text to bytes, one symbol at a time; a
symbol missing from the table aborts the run (`sys.exit(1)` in the
source, modelled as `none`). -/
def encodeSymbols (table : Symbol → Option ByteSeq) : List Symbol → Option ByteSeq
  | [] => some []
  | c :: rest => do
    let b ← table c
    let r ← encodeSymbols table rest
    pure (b ++ r)

/-- Embeds `convert_string_bytes` (lines 464-473). -/
def convert_string_bytes (table : Symbol → Option ByteSeq) (text : List Symbol) :
    Option ByteSeq :=
  encodeSymbols table (preprocess text)

/-- Byte-lexicographic comparison of byte strings, as Python compares
`bytes` values (the sort key at line 776). -/
def byteSeqLE : ByteSeq → ByteSeq → Bool
  | [], _ => true
  | _ :: _, [] => false
  | a :: as, b :: bs => if a < b then true else if b < a then false else byteSeqLE as bs

/-- The backward-sorted table (lines 771-777): each string paired with
its original index and its reversed encoded bytes, sorted by the
reversed bytes.  Python's `sorted` is a stable sort by a total preorder
and a stable sort's output is unique, so the insertion sort used here
produces exactly the same list. -/
def backward_sorted_table (conv : List ByteSeq) : List (Nat × ByteSeq) :=
  List.insertionSort (fun x y => byteSeqLE x.2 y.2 = true)
    (conv.enum.map (fun p => (p.1, p.2.reverse)))

/-- One absorbed string: `RemappedTranslationItem` (lines 759-762). -/
structure RemappedTranslationItem where
  str_index : Nat
  str_start_offset : Nat
deriving DecidableEq

/-- The inner `while` loop of the suffix-merge scan (lines 781-782):
starting at sorted position `j`, advance while the next entry's reversed
bytes extend `converted`; `rem` holds the entries after position `j`.
An exhausted `rem` means the source would index one past the end of the
table — an uncaught `IndexError` — modelled as `none`. -/
def absorbLoopAux (converted : ByteSeq) (j : Nat) :
    List (Nat × ByteSeq) → Option Nat
  | [] => none
  | e :: rest =>
    if converted.isPrefixOf e.2 then absorbLoopAux converted (j + 1) rest
    else some j

/-- The scan for the largest run of entries extending `converted`,
starting from sorted position `i`. -/
def absorbLoop (bst : List (Nat × ByteSeq)) (converted : ByteSeq) (i : Nat) :
    Option Nat :=
  absorbLoopAux converted i (bst.drop (i + 1))

/-- The suffix-merge scan (lines 778-787) over the sorted positions `is`
(all of `backward_sorted_table[:-1]`), updating the remapping array.
The `bst[i]?` and `bst[j]?` accesses are direct list indexings in the
source and always in bounds on a real run. -/
def buildRemapAux (bst : List (Nat × ByteSeq)) :
    List Nat → List (Option RemappedTranslationItem) →
    Option (List (Option RemappedTranslationItem))
  | [], arr => some arr
  | i :: rest, arr =>
    match bst[i]? with
    | none => none
    | some ec =>
      -- `ec.1` is the entry's original string index, `ec.2` its reversed bytes
      match absorbLoop bst ec.2 i with
      | none => none
      | some j =>
        if j = i then buildRemapAux bst rest arr
        else
          match bst[j]? with
          | none => none
          | some rep =>
            buildRemapAux bst rest
              (arr.set ec.1 (some ⟨rep.1, rep.2.length - ec.2.length⟩))

/-- The full suffix-merge scan producing `str_remapping` (lines 778-787). -/
def str_remapping (bst : List (Nat × ByteSeq)) (n : Nat) :
    Option (List (Option RemappedTranslationItem)) :=
  buildRemapAux bst (List.range (bst.length - 1)) (List.replicate n none)

/-- The `str_used_by` offset assignment for one representative `i` at
blob offset `offset` (lines 800-826): every absorbed string pointing at
`i` receives `offset + str_start_offset`. -/
def setUsedBy : List (Nat × Option RemappedTranslationItem) → Nat → Nat →
    List Int → List Int
  | [], _, _, offs => offs
  | (j, rj) :: rest, i, offset, offs =>
    match rj with
    | some r =>
      setUsedBy rest i offset
        (if r.str_index = i then offs.set j ((offset + r.str_start_offset : Nat) : Int)
         else offs)
    | none => setUsedBy rest i offset offs

/-- The blob-emission loop (lines 789-831) over original indices `is`: a
not-absorbed (representative) string appends its encoded bytes followed
by one 0x00 terminator (the `"\0"` separator written before each later
string plus the C string literal's implicit final NUL amount to one
terminator after each representative), records its own offset and the
offsets of all strings absorbed into it, and advances the running offset
by `len + 1`. -/
def writeAux (conv : List ByteSeq) (remap : List (Option RemappedTranslationItem)) :
    List Nat → ByteSeq × List Int × Nat → ByteSeq × List Int × Nat
  | [], st => st
  | i :: rest, (blob, offs, offset) =>
    match remap[i]? with
    | some none =>
      let bytes := conv.getD i []
      writeAux conv remap rest
        (blob ++ bytes ++ [0],
         setUsedBy remap.enum i offset (offs.set i (offset : Int)),
         offset + bytes.length + 1)
    | _ => writeAux conv remap rest (blob, offs, offset)

/-- The string-table emission: blob bytes and per-string offsets
(`str_offsets`, initialized to `-1` as in line 790). -/
def write_string_table (conv : List ByteSeq)
    (remap : List (Option RemappedTranslationItem)) : ByteSeq × List Int :=
  let t := writeAux conv remap (List.range conv.length)
    ([], List.replicate conv.length (-1), 0)
  (t.1, t.2.1)

/-- The compactor's analysis stage: encode every string and run the
suffix-merge scan. -/
def compactRemap (table : Symbol → Option ByteSeq) (str_table : List (List Symbol)) :
    Option (List ByteSeq × List (Option RemappedTranslationItem)) := do
  let conv ← str_table.mapM (convert_string_bytes table)
  let remap ← str_remapping (backward_sorted_table conv) conv.length
  pure (conv, remap)

/-- The whole compactor — `compact(strings, byte_code_map)` of spec §4.4,
lines 764-836 of the source: the concatenated deduplicated blob and the
per-string byte offsets into it. -/
def compact (table : Symbol → Option ByteSeq) (str_table : List (List Symbol)) :
    Option (ByteSeq × List Int) := do
  let cr ← compactRemap table str_table
  pure (write_string_table cr.1 cr.2)

/-- The byte-code map of the C2 scenario: every letter encodes as its
own single ASCII byte. -/
def asciiTable : Symbol → Option ByteSeq := fun s => some [s]

/-- C2 counterexample: on `["ab", "cdab", "xyz"]` (code points
`[97,98]`, `[99,100,97,98]`, `[120,121,122]`) the compactor emits the
blob `b"cdab\x7b0\x7dxyz\x7b0\x7d"` with offsets `[2, 0, 5]` — not the
claimed offsets `[5, 2, 0]`, and not the claimed blob either (under the
claim's own blob `b"xyz<0>cdab<0>"` the offsets would be `[6, 4, 0]`,
and its `blob[5:8]` is `"dab"`, not `"ab"` plus a terminator). -/
theorem compactor_scenario_counterexample :
    compact asciiTable [[97, 98], [99, 100, 97, 98], [120, 121, 122]] =
      some ([99, 100, 97, 98, 0, 120, 121, 122, 0], [2, 0, 5]) ∧
    ([2, 0, 5] : List Int) ≠ [5, 2, 0] ∧
    ([99, 100, 97, 98, 0, 120, 121, 122, 0] : ByteSeq) ≠
      [120, 121, 122, 0, 99, 100, 97, 98, 0] :=
  ⟨by decide, by decide, by decide⟩

/-- C2 (amended): on `["ab", "cdab", "xyz"]` with one ASCII byte per
letter the compactor produces the blob `b"cdab<0>xyz<0>"` with offsets
`[2, 0, 5]`: index 0 (`"ab"`) points at `blob[2:5] = b"ab<0>"` via
suffix absorption into `"cdab"` — reading the blob from offset 2 up to
the next 0x00 yields exactly the encoding `[97, 98]` of `"ab"`. -/
theorem compactor_scenario_amended :
    compact asciiTable [[97, 98], [99, 100, 97, 98], [120, 121, 122]] =
      some ([99, 100, 97, 98, 0, 120, 121, 122, 0], [2, 0, 5]) ∧
    (([99, 100, 97, 98, 0, 120, 121, 122, 0] : ByteSeq).drop 2).takeWhile
      (fun b => b != 0) = [97, 98] ∧
    convert_string_bytes asciiTable [97, 98] = some [97, 98] :=
  ⟨by decide, by decide, by decide⟩

/-- A byte-code map that sends `"a"` (97) to the single byte 0x00. -/
def zeroByteTable : Symbol → Option ByteSeq :=
  fun s => if s = 97 then some [0] else none

/-- C1 counterexample: the claim fails as stated, in two ways, each at a
concrete input.  (1) On `["b", "ab"]` with one-byte-per-letter codes the
suffix scan walks past the end of the sorted table (an `IndexError` in
the source), so no blob and no offsets are produced at all.  (2) Under a
byte-code map whose code for `"a"` contains the byte 0x00, the blob is
produced but reading from the recorded offset up to the next 0x00 byte
does not reproduce the string's encoding. -/
theorem compact_read_counterexample :
    compact asciiTable [[98], [97, 98]] = none ∧
    compact zeroByteTable [[97]] = some ([0, 0], [0]) ∧
    convert_string_bytes zeroByteTable [97] = some [0] ∧
    (([0, 0] : ByteSeq).drop 0).takeWhile (fun b => b != 0) ≠ [0] :=
  ⟨by decide, by decide, by decide, by decide⟩

/-! ### Properties of the suffix-merge scan -/

/-- Helper: `isPrefixOf` in terms of an explicit tail. -/
theorem isPrefixOf_eq_true_iff :
    ∀ (a b : ByteSeq), a.isPrefixOf b = true ↔ ∃ t, b = a ++ t := by
  intro a
  induction a with
  | nil => intro b; simp [List.isPrefixOf]
  | cons x xs ih =>
    intro b
    cases b with
    | nil => simp [List.isPrefixOf]
    | cons y ys =>
      simp only [List.isPrefixOf, Bool.and_eq_true, beq_iff_eq, ih, List.cons_append,
        List.cons.injEq]
      constructor
      · rintro ⟨hxy, t, ht⟩
        exact ⟨t, hxy.symm, ht⟩
      · rintro ⟨t, hxy, ht⟩
        exact ⟨hxy.symm, t, ht⟩

/-- Helper: the inner scan loop, started at position `j` on the entries
after `j`, returns a `k ≥ j` such that entry `k` (when `k ≠ j`) extends
`converted` and entry `k + 1` exists but does not. -/
theorem absorbLoopAux_spec (bst : List (Nat × ByteSeq)) (c : ByteSeq) :
    ∀ (rem : List (Nat × ByteSeq)) (j k : Nat), rem = bst.drop (j + 1) →
      absorbLoopAux c j rem = some k →
      j ≤ k ∧
      (j ≠ k → ∃ e, bst[k]? = some e ∧ c.isPrefixOf e.2 = true) ∧
      (∃ e, bst[k + 1]? = some e ∧ ¬ c.isPrefixOf e.2 = true) := by
  intro rem
  induction rem generalizing c with
  | nil => intro j k _ h; exact absurd h (by simp [absorbLoopAux])
  | cons e rest ih =>
    intro j k hdrop h
    have he : bst[j + 1]? = some e := by
      rw [← List.head?_drop, ← hdrop]
      rfl
    have hrest : rest = bst.drop (j + 1 + 1) := by
      have h2 : bst.drop (j + 1 + 1) = (bst.drop (j + 1)).drop 1 := by
        rw [List.drop_drop]
      rw [h2, ← hdrop]
      rfl
    simp only [absorbLoopAux] at h
    by_cases hp : c.isPrefixOf e.2 = true
    · rw [if_pos hp] at h
      obtain ⟨hjk, hmid, hstop⟩ := ih c (j + 1) k hrest h
      refine ⟨by omega, ?_, hstop⟩
      intro _
      by_cases hj1k : j + 1 = k
      · exact ⟨e, by rw [← hj1k]; exact he, hp⟩
      · exact hmid hj1k
    · rw [if_neg hp] at h
      cases h
      exact ⟨le_refl j, fun hne => absurd rfl hne, ⟨e, he, hp⟩⟩

/-- Helper: the same, phrased for `absorbLoop`. -/
theorem absorbLoop_spec (bst : List (Nat × ByteSeq)) (c : ByteSeq) (i k : Nat)
    (h : absorbLoop bst c i = some k) :
    i ≤ k ∧
    (i ≠ k → ∃ e, bst[k]? = some e ∧ c.isPrefixOf e.2 = true) ∧
    (∃ e, bst[k + 1]? = some e ∧ ¬ c.isPrefixOf e.2 = true) :=
  absorbLoopAux_spec bst c (bst.drop (i + 1)) i k rfl h

/-- Helper: the representative found by a successful absorbing scan is
itself not absorbed: its own scan stops immediately. -/
theorem absorbLoop_rep_self (bst : List (Nat × ByteSeq)) (c : ByteSeq) (i j : Nat)
    (h : absorbLoop bst c i = some j) (hne : j ≠ i) (rep : Nat × ByteSeq)
    (hrep : bst[j]? = some rep) :
    absorbLoop bst rep.2 j = some j := by
  obtain ⟨hij, hmid, e1, he1, hstop⟩ := absorbLoop_spec bst c i j h
  obtain ⟨e, he, hpre⟩ := hmid (fun hh => hne hh.symm)
  rw [hrep] at he
  cases he
  have hdrop : bst.drop (j + 1) = e1 :: bst.drop (j + 1 + 1) := by
    obtain ⟨hlt, hget⟩ := List.getElem?_eq_some.mp he1
    rw [List.drop_eq_getElem_cons hlt, hget]
  unfold absorbLoop
  rw [hdrop]
  simp only [absorbLoopAux]
  rw [if_neg ?_]
  intro hpre2
  obtain ⟨t1, ht1⟩ := (isPrefixOf_eq_true_iff c rep.2).mp hpre
  obtain ⟨t2, ht2⟩ := (isPrefixOf_eq_true_iff rep.2 e1.2).mp hpre2
  refine hstop ((isPrefixOf_eq_true_iff c e1.2).mpr ⟨t1 ++ t2, ?_⟩)
  rw [ht2, ht1, List.append_assoc]

/-- Helper: an index paired with the value it holds is an `enum` member. -/
theorem mem_enum_of_getElem {α : Type} {l : List α} {i : Nat} {a : α}
    (h : l[i]? = some a) : (i, a) ∈ l.enum := by
  obtain ⟨hlt, hget⟩ := List.getElem?_eq_some.mp h
  have hlt2 : i < l.enum.length := by rw [List.enum_length]; exact hlt
  have h2 : l.enum[i] = (i, a) := by rw [List.getElem_enum]; rw [hget]
  rw [← h2]
  exact List.getElem_mem hlt2

/-- Helper: an `enum` member recovers the indexed lookup. -/
theorem getElem_of_mem_enum {α : Type} {l : List α} {i : Nat} {a : α}
    (h : (i, a) ∈ l.enum) : l[i]? = some a := by
  obtain ⟨hlt, hval⟩ := List.mem_enum h
  rw [List.getElem?_eq_getElem hlt, hval]

/-- Helper: the scan preserves the remapping array's length. -/
theorem buildRemapAux_length (bst : List (Nat × ByteSeq)) :
    ∀ (is : List Nat) (arr arr' : List (Option RemappedTranslationItem)),
      buildRemapAux bst is arr = some arr' → arr'.length = arr.length := by
  intro is
  induction is with
  | nil => intro arr arr' h; cases h; rfl
  | cons i rest ih =>
    intro arr arr' h
    simp only [buildRemapAux] at h
    cases hbi : bst[i]? with
    | none => rw [hbi] at h; dsimp only at h; cases h
    | some ec =>
      rw [hbi] at h
      dsimp only at h
      cases habs : absorbLoop bst ec.2 i with
      | none => rw [habs] at h; dsimp only at h; cases h
      | some j =>
        rw [habs] at h
        dsimp only at h
        by_cases hji : j = i
        · rw [if_pos hji] at h
          exact ih arr arr' h
        · rw [if_neg hji] at h
          cases hbj : bst[j]? with
          | none => rw [hbj] at h; dsimp only at h; cases h
          | some rep =>
            rw [hbj] at h
            dsimp only at h
            have := ih _ _ h
            rw [this, List.length_set]

/-- Helper: an absorbed entry of the final remapping array was recorded
by some iteration of the scan: a sorted position holding that original
index whose absorbing scan found a strictly later representative. -/
theorem buildRemapAux_some_inv (bst : List (Nat × ByteSeq)) :
    ∀ (is : List Nat) (arr arr' : List (Option RemappedTranslationItem)),
      buildRemapAux bst is arr = some arr' →
      ∀ x r, arr'[x]? = some (some r) →
        arr[x]? = some (some r) ∨
        ∃ i ∈ is, ∃ c j rep, bst[i]? = some (x, c) ∧ absorbLoop bst c i = some j ∧
          j ≠ i ∧ bst[j]? = some rep ∧
          r = ⟨rep.1, rep.2.length - c.length⟩ := by
  intro is
  induction is with
  | nil => intro arr arr' h x r hx; cases h; exact Or.inl hx
  | cons i rest ih =>
    intro arr arr' h x r hx
    simp only [buildRemapAux] at h
    cases hbi : bst[i]? with
    | none => rw [hbi] at h; dsimp only at h; cases h
    | some ec =>
      rw [hbi] at h
      dsimp only at h
      cases habs : absorbLoop bst ec.2 i with
      | none => rw [habs] at h; dsimp only at h; cases h
      | some j =>
        rw [habs] at h
        dsimp only at h
        by_cases hji : j = i
        · rw [if_pos hji] at h
          rcases ih arr arr' h x r hx with hl | ⟨i', hi', rest'⟩
          · exact Or.inl hl
          · exact Or.inr ⟨i', List.mem_cons_of_mem _ hi', rest'⟩
        · rw [if_neg hji] at h
          cases hbj : bst[j]? with
          | none => rw [hbj] at h; dsimp only at h; cases h
          | some rep =>
            rw [hbj] at h
            dsimp only at h
            rcases ih _ _ h x r hx with hl | ⟨i', hi', rest'⟩
            · rw [List.getElem?_set] at hl
              by_cases hexi : ec.1 = x
              · rw [if_pos hexi] at hl
                by_cases hlen : ec.1 < arr.length
                · rw [if_pos hlen] at hl
                  injection hl with hl
                  injection hl with hl
                  refine Or.inr ⟨i, List.mem_cons_self _ _,
                    ec.2, j, rep, ?_, habs, hji, hbj, hl.symm⟩
                  rw [← hexi]
                  exact hbi
                · rw [if_neg hlen] at hl
                  cases hl
              · rw [if_neg hexi] at hl
                exact Or.inl hl
            · exact Or.inr ⟨i', List.mem_cons_of_mem _ hi', rest'⟩

/-- Helper: an original index that no listed iteration records keeps its
initial remapping entry. -/
theorem buildRemapAux_preserve (bst : List (Nat × ByteSeq)) :
    ∀ (is : List Nat) (arr arr' : List (Option RemappedTranslationItem)) (x : Nat),
      buildRemapAux bst is arr = some arr' →
      (∀ i ∈ is, ∀ e, bst[i]? = some e → e.1 ≠ x ∨ absorbLoop bst e.2 i = some i) →
      arr'[x]? = arr[x]? := by
  intro is
  induction is with
  | nil => intro arr arr' x h _; cases h; rfl
  | cons i rest ih =>
    intro arr arr' x h hno
    simp only [buildRemapAux] at h
    cases hbi : bst[i]? with
    | none => rw [hbi] at h; dsimp only at h; cases h
    | some ec =>
      rw [hbi] at h
      dsimp only at h
      cases habs : absorbLoop bst ec.2 i with
      | none => rw [habs] at h; dsimp only at h; cases h
      | some j =>
        rw [habs] at h
        dsimp only at h
        by_cases hji : j = i
        · rw [if_pos hji] at h
          exact ih arr arr' x h (fun i' hi' => hno i' (List.mem_cons_of_mem _ hi'))
        · rw [if_neg hji] at h
          cases hbj : bst[j]? with
          | none => rw [hbj] at h; dsimp only at h; cases h
          | some rep =>
            rw [hbj] at h
            dsimp only at h
            have hx : ec.1 ≠ x := by
              rcases hno i (List.mem_cons_self _ _) ec hbi with hne | hself
              · exact hne
              · rw [habs] at hself
                injection hself with hself
                exact absurd hself hji
            rw [ih _ _ x h (fun i' hi' => hno i' (List.mem_cons_of_mem _ hi')),
              List.getElem?_set_ne hx]

/-- Helper: the sorted table is a permutation of the enumerated reversed
encodings. -/
theorem backward_sorted_table_perm (conv : List ByteSeq) :
    (backward_sorted_table conv).Perm (conv.enum.map (fun p => (p.1, p.2.reverse))) :=
  List.perm_insertionSort _ _

/-- Helper: the sorted table has one entry per string. -/
theorem backward_sorted_table_length (conv : List ByteSeq) :
    (backward_sorted_table conv).length = conv.length := by
  rw [(backward_sorted_table_perm conv).length_eq, List.length_map, List.enum_length]

/-- Helper: every sorted-table entry holds an original index below the
string count and the reversal of that string's encoded bytes. -/
theorem backward_sorted_table_mem (conv : List ByteSeq) {e : Nat × ByteSeq}
    (he : e ∈ backward_sorted_table conv) :
    e.1 < conv.length ∧ conv[e.1]? = some e.2.reverse := by
  have hmem := (backward_sorted_table_perm conv).mem_iff.mp he
  obtain ⟨p, hp, hpe⟩ := List.mem_map.mp hmem
  obtain ⟨i, b⟩ := p
  obtain ⟨hlt, hval⟩ := List.mem_enum hp
  rw [← hpe]
  refine ⟨hlt, ?_⟩
  rw [List.getElem?_eq_getElem hlt, ← hval]
  simp

/-- Helper: the sorted table's original indices are pairwise distinct. -/
theorem backward_sorted_table_keys_nodup (conv : List ByteSeq) :
    ((backward_sorted_table conv).map Prod.fst).Nodup := by
  have hperm : ((backward_sorted_table conv).map Prod.fst).Perm
      ((conv.enum.map (fun p => (p.1, p.2.reverse))).map Prod.fst) :=
    (backward_sorted_table_perm conv).map _
  have heq : (conv.enum.map (fun p : Nat × ByteSeq => (p.1, p.2.reverse))).map Prod.fst =
      List.range conv.length := by
    rw [List.map_map]
    have : (Prod.fst ∘ fun p : Nat × ByteSeq => (p.1, p.2.reverse)) = Prod.fst := by
      funext p; rfl
    rw [this, List.enum_map_fst]
  rw [heq] at hperm
  exact hperm.nodup_iff.mpr (List.nodup_range _)

/-- Helper: two sorted-table positions holding the same original index
are equal. -/
theorem backward_sorted_table_key_inj (conv : List ByteSeq) {i j : Nat}
    {e f : Nat × ByteSeq} (hi : (backward_sorted_table conv)[i]? = some e)
    (hj : (backward_sorted_table conv)[j]? = some f) (hef : e.1 = f.1) : i = j := by
  have hnd := backward_sorted_table_keys_nodup conv
  obtain ⟨hi1, hi2⟩ := List.getElem?_eq_some.mp hi
  obtain ⟨hj1, hj2⟩ := List.getElem?_eq_some.mp hj
  have hilen : i < ((backward_sorted_table conv).map Prod.fst).length := by
    rw [List.length_map]; exact hi1
  have hjlen : j < ((backward_sorted_table conv).map Prod.fst).length := by
    rw [List.length_map]; exact hj1
  have hgeq : ((backward_sorted_table conv).map Prod.fst).get ⟨i, hilen⟩ =
      ((backward_sorted_table conv).map Prod.fst).get ⟨j, hjlen⟩ := by
    simp only [List.get_eq_getElem]
    rw [List.getElem_map, List.getElem_map, hi2, hj2]
    exact hef
  have hfin := (List.Nodup.get_inj_iff hnd).mp hgeq
  exact congrArg Fin.val hfin

/-- Helper: everything C1 and C10 need from a completed suffix-merge
scan: the remapping array is index-parallel to the strings, and every
absorbed string points with its recorded start offset into a
representative whose encoding ends with the absorbed string's encoding —
and that representative is itself not absorbed. -/
theorem str_remapping_spec (conv : List ByteSeq)
    (remap : List (Option RemappedTranslationItem))
    (h : str_remapping (backward_sorted_table conv) conv.length = some remap) :
    remap.length = conv.length ∧
    ∀ (x : Nat) (r : RemappedTranslationItem), remap[x]? = some (some r) →
      ∃ (cx cy : ByteSeq), conv[x]? = some cx ∧ conv[r.str_index]? = some cy ∧
        r.str_start_offset = cy.length - cx.length ∧
        cx.length ≤ cy.length ∧
        cy.drop r.str_start_offset = cx ∧
        remap[r.str_index]? = some none := by
  unfold str_remapping at h
  refine ⟨by rw [buildRemapAux_length _ _ _ _ h, List.length_replicate], ?_⟩
  intro x r hx
  rcases buildRemapAux_some_inv _ _ _ _ h x r hx with hl |
    ⟨i, hi, c, j, rep, hbi, habs, hji, hbj, hr⟩
  · rw [List.getElem?_replicate] at hl
    split at hl <;> simp at hl
  · subst hr
    have hmemi : ((x, c) : Nat × ByteSeq) ∈ backward_sorted_table conv :=
      mem_of_getElem_eq_some hbi
    obtain ⟨hxlt, hxconv⟩ := backward_sorted_table_mem conv hmemi
    have hmemj : rep ∈ backward_sorted_table conv := mem_of_getElem_eq_some hbj
    obtain ⟨hylt, hyconv⟩ := backward_sorted_table_mem conv hmemj
    obtain ⟨hij, hmid, hstop⟩ := absorbLoop_spec _ _ _ _ habs
    obtain ⟨e, he, hpre⟩ := hmid (fun hh => hji hh.symm)
    rw [hbj] at he
    cases he
    obtain ⟨t, ht⟩ := (isPrefixOf_eq_true_iff c rep.2).mp hpre
    refine ⟨c.reverse, rep.2.reverse, hxconv, hyconv, ?_, ?_, ?_, ?_⟩
    · simp
    · rw [ht]; simp
    · show rep.2.reverse.drop (rep.2.length - c.length) = c.reverse
      rw [ht, List.reverse_append]
      have hlen2 : (c ++ t).length - c.length = t.reverse.length := by simp
      rw [hlen2, List.drop_left]
    · show remap[rep.1]? = some none
      have hself : absorbLoop (backward_sorted_table conv) rep.2 j = some j :=
        absorbLoop_rep_self _ c i j habs hji rep hbj
      have hpres := buildRemapAux_preserve (backward_sorted_table conv)
        (List.range ((backward_sorted_table conv).length - 1))
        (List.replicate conv.length none) remap rep.1 h ?_
      · rw [hpres, List.getElem?_replicate, if_pos hylt]
      · intro i' hi' e hbe
        by_cases heq : e.1 = rep.1
        · right
          have hij' : i' = j := backward_sorted_table_key_inj conv hbe hbj heq
          subst hij'
          rw [hbe] at hbj
          cases hbj
          exact hself
        · exact Or.inl heq

/-! ### Properties of the blob emission -/

/-- Helper: the offset assignment keeps the offset array's length. -/
theorem setUsedBy_length :
    ∀ (pairs : List (Nat × Option RemappedTranslationItem)) (i offset : Nat)
      (offs : List Int), (setUsedBy pairs i offset offs).length = offs.length := by
  intro pairs
  induction pairs with
  | nil => intro i offset offs; rfl
  | cons p rest ih =>
    intro i offset offs
    obtain ⟨j, rj⟩ := p
    cases rj with
    | some r =>
      simp only [setUsedBy]
      rw [ih]
      by_cases hc : r.str_index = i
      · rw [if_pos hc, List.length_set]
      · rw [if_neg hc]
    | none =>
      simp only [setUsedBy]
      exact ih i offset offs

/-- Helper: an index that no listed pair maps onto representative `i`
keeps its offset entry. -/
theorem setUsedBy_get_of_none :
    ∀ (pairs : List (Nat × Option RemappedTranslationItem)) (i offset : Nat)
      (offs : List Int) (x : Nat),
      (∀ rj, (x, rj) ∈ pairs → ∀ r, rj = some r → r.str_index ≠ i) →
      (setUsedBy pairs i offset offs)[x]? = offs[x]? := by
  intro pairs
  induction pairs with
  | nil => intro i offset offs x _; rfl
  | cons p rest ih =>
    intro i offset offs x hno
    obtain ⟨j, rj⟩ := p
    cases rj with
    | some r =>
      simp only [setUsedBy]
      rw [ih i offset _ x (fun rj' hm => hno rj' (List.mem_cons_of_mem _ hm))]
      by_cases hji : j = x
      · subst hji
        have hni := hno (some r) (List.mem_cons_self _ _) r rfl
        rw [if_neg hni]
      · by_cases hc : r.str_index = i
        · rw [if_pos hc, List.getElem?_set_ne hji]
        · rw [if_neg hc]
    | none =>
      simp only [setUsedBy]
      exact ih i offset offs x (fun rj' hm => hno rj' (List.mem_cons_of_mem _ hm))

/-- Helper: an absorbed index pointing at representative `i` receives
`offset + str_start_offset`. -/
theorem setUsedBy_get_of_mem :
    ∀ (pairs : List (Nat × Option RemappedTranslationItem)) (i offset : Nat)
      (offs : List Int) (x : Nat) (r : RemappedTranslationItem),
      (x, some r) ∈ pairs → (pairs.map Prod.fst).Nodup → r.str_index = i →
      x < offs.length →
      (setUsedBy pairs i offset offs)[x]? =
        some ((offset + r.str_start_offset : Nat) : Int) := by
  intro pairs
  induction pairs with
  | nil => intro i offset offs x r hm _ _ _; cases hm
  | cons p rest ih =>
    intro i offset offs x r hm hnd hri hx
    obtain ⟨j, rj⟩ := p
    simp only [List.map_cons] at hnd
    rcases List.mem_cons.mp hm with hhead | htail
    · cases hhead
      simp only [setUsedBy]
      rw [if_pos hri]
      rw [setUsedBy_get_of_none rest i offset _ x ?_]
      · exact List.getElem?_set_eq_of_lt _ hx
      · intro rj' hm' r' hr'
        exfalso
        exact (List.nodup_cons.mp hnd).1
          (List.mem_map.mpr ⟨(x, rj'), hm', rfl⟩)
    · have hjx : j ≠ x := by
        intro hjx
        subst hjx
        exact (List.nodup_cons.mp hnd).1 (List.mem_map.mpr ⟨(j, some r), htail, rfl⟩)
      cases rj with
      | some r' =>
        simp only [setUsedBy]
        refine ih i offset _ x r htail (List.nodup_cons.mp hnd).2 hri ?_
        by_cases hc : r'.str_index = i
        · rw [if_pos hc, List.length_set]; exact hx
        · rw [if_neg hc]; exact hx
      | none =>
        simp only [setUsedBy]
        exact ih i offset offs x r htail (List.nodup_cons.mp hnd).2 hri hx

/-- The bytes a run of the emission loop appends: one `bytes ++ [0]`
chunk per representative index, in order. -/
def emitted (conv : List ByteSeq) (remap : List (Option RemappedTranslationItem))
    (is : List Nat) : ByteSeq :=
  (is.filter (fun i => decide (remap[i]? = some none))).flatMap
    (fun i => conv.getD i [] ++ [0])

/-- Helper: `emitted` distributes over concatenation of index runs. -/
theorem emitted_append (conv : List ByteSeq)
    (remap : List (Option RemappedTranslationItem)) (is1 is2 : List Nat) :
    emitted conv remap (is1 ++ is2) =
      emitted conv remap is1 ++ emitted conv remap is2 := by
  simp [emitted, List.filter_append]

/-- Helper: the blob grows by exactly `emitted`, the running offset
tracks the blob length, and the offset array's length is unchanged. -/
theorem writeAux_state (conv : List ByteSeq)
    (remap : List (Option RemappedTranslationItem)) :
    ∀ (is : List Nat) (blob : ByteSeq) (offs : List Int) (offset : Nat),
      (writeAux conv remap is (blob, offs, offset)).1 = blob ++ emitted conv remap is ∧
      (writeAux conv remap is (blob, offs, offset)).2.2 =
        offset + (emitted conv remap is).length ∧
      (writeAux conv remap is (blob, offs, offset)).2.1.length = offs.length := by
  intro is
  induction is with
  | nil =>
    intro blob offs offset
    exact ⟨by simp [emitted, writeAux], by simp [emitted, writeAux], rfl⟩
  | cons i rest ih =>
    intro blob offs offset
    simp only [writeAux]
    cases hre : remap[i]? with
    | none =>
      have hem : emitted conv remap (i :: rest) = emitted conv remap rest := by
        simp [emitted, hre]
      dsimp only
      rw [hem]
      exact ih blob offs offset
    | some v =>
      cases v with
      | none =>
        have hem : emitted conv remap (i :: rest) =
            (conv.getD i [] ++ [0]) ++ emitted conv remap rest := by
          simp [emitted, hre]
        dsimp only
        obtain ⟨h1, h2, h3⟩ := ih (blob ++ conv.getD i [] ++ [0])
          (setUsedBy remap.enum i offset (offs.set i (offset : Int)))
          (offset + (conv.getD i []).length + 1)
        refine ⟨?_, ?_, ?_⟩
        · rw [h1, hem]
          simp [List.append_assoc]
        · rw [h2, hem]
          simp only [List.length_append, List.length_cons, List.length_nil]
          omega
        · rw [h3, setUsedBy_length, List.length_set]
      | some r =>
        have hem : emitted conv remap (i :: rest) = emitted conv remap rest := by
          simp [emitted, hre]
        dsimp only
        rw [hem]
        exact ih blob offs offset

/-- Helper: an index that no listed iteration writes (it is not a
representative in the run, and no representative in the run is its
absorbing target) keeps its offset entry. -/
theorem writeAux_offs_untouched (conv : List ByteSeq)
    (remap : List (Option RemappedTranslationItem)) :
    ∀ (is : List Nat) (blob : ByteSeq) (offs : List Int) (offset : Nat) (x : Nat),
      (∀ i ∈ is, remap[i]? = some none →
        i ≠ x ∧ ∀ r, remap[x]? = some (some r) → r.str_index ≠ i) →
      (writeAux conv remap is (blob, offs, offset)).2.1[x]? = offs[x]? := by
  intro is
  induction is with
  | nil => intro blob offs offset x _; rfl
  | cons i rest ih =>
    intro blob offs offset x hno
    simp only [writeAux]
    cases hre : remap[i]? with
    | none =>
      dsimp only
      exact ih blob offs offset x (fun i' hi' => hno i' (List.mem_cons_of_mem _ hi'))
    | some v =>
      cases v with
      | none =>
        obtain ⟨hix, husr⟩ := hno i (List.mem_cons_self _ _) hre
        dsimp only
        rw [ih _ _ _ x (fun i' hi' => hno i' (List.mem_cons_of_mem _ hi'))]
        rw [setUsedBy_get_of_none remap.enum i offset _ x ?_]
        · exact List.getElem?_set_ne hix
        · intro rj hm r' hr'
          subst hr'
          exact husr r' (getElem_of_mem_enum hm)
      | some r =>
        dsimp only
        exact ih blob offs offset x (fun i' hi' => hno i' (List.mem_cons_of_mem _ hi'))

/-- Helper: splitting the index range around one index. -/
theorem range_split (n x : Nat) (hx : x < n) :
    List.range n =
      List.range x ++ x :: ((List.range (n - x - 1)).map (fun t => x + 1 + t)) := by
  have h1 : n = x + (1 + (n - x - 1)) := by omega
  conv_lhs => rw [h1, List.range_add, List.range_add]
  congr 1
  have hr1 : List.range 1 = [0] := rfl
  simp [hr1, List.map_map, Function.comp, Nat.add_assoc]

/-- Helper: the emission loop processes concatenated index runs in
sequence. -/
theorem writeAux_append (conv : List ByteSeq)
    (remap : List (Option RemappedTranslationItem)) :
    ∀ (is1 is2 : List Nat) (st : ByteSeq × List Int × Nat),
      writeAux conv remap (is1 ++ is2) st =
        writeAux conv remap is2 (writeAux conv remap is1 st) := by
  intro is1
  induction is1 with
  | nil => intro is2 st; rfl
  | cons i rest ih =>
    intro is2 st
    obtain ⟨blob, offs, offset⟩ := st
    simp only [List.cons_append, writeAux]
    cases hre : remap[i]? with
    | none => dsimp only; exact ih is2 _
    | some v =>
      cases v with
      | none => dsimp only; exact ih is2 _
      | some r => dsimp only; exact ih is2 _

/-- Helper: a representative's final offset is the length of everything
emitted before it, and the final blob splits around its own chunk. -/
theorem write_string_table_rep (conv : List ByteSeq)
    (remap : List (Option RemappedTranslationItem))
    (hlen : remap.length = conv.length)
    (x : Nat) (hx : remap[x]? = some none) :
    (write_string_table conv remap).2[x]? =
      some (((emitted conv remap (List.range x)).length : Nat) : Int) ∧
    (write_string_table conv remap).1 =
      emitted conv remap (List.range x) ++ (conv.getD x [] ++ [0]) ++
        emitted conv remap
          ((List.range (conv.length - x - 1)).map (fun t => x + 1 + t)) := by
  have hxn : x < conv.length := by
    rw [← hlen]
    exact (List.getElem?_eq_some.mp hx).1
  have hsplit := range_split conv.length x hxn
  unfold write_string_table
  rw [hsplit, writeAux_append]
  rcases hst1 : writeAux conv remap (List.range x)
      ([], List.replicate conv.length (-1), 0) with ⟨b1, o1, f1⟩
  obtain ⟨hb1, hf1, ho1len⟩ := writeAux_state conv remap (List.range x)
    [] (List.replicate conv.length (-1)) 0
  rw [hst1] at hb1 hf1 ho1len
  simp only at hb1 hf1 ho1len
  have ho1x : o1[x]? = (List.replicate conv.length (-1 : Int))[x]? := by
    have := writeAux_offs_untouched conv remap (List.range x)
      [] (List.replicate conv.length (-1)) 0 x ?_
    · rw [hst1] at this; exact this
    · intro i hi _
      have hilt : i < x := List.mem_range.mp hi
      refine ⟨by omega, ?_⟩
      intro r hr
      rw [hx] at hr
      cases hr
  simp only [writeAux]
  rw [hx]
  dsimp only
  constructor
  · have huntouched := writeAux_offs_untouched conv remap
      ((List.range (conv.length - x - 1)).map (fun t => x + 1 + t))
      (b1 ++ conv.getD x [] ++ [0])
      (setUsedBy remap.enum x f1 (o1.set x (f1 : Int)))
      (f1 + (conv.getD x []).length + 1) x ?_
    · rw [huntouched]
      rw [setUsedBy_get_of_none remap.enum x f1 _ x ?_]
      · rw [List.getElem?_set_eq_of_lt]
        · rw [hf1, Nat.zero_add]
        · rw [ho1len, List.length_replicate, ← hlen]
          exact (List.getElem?_eq_some.mp hx).1
      · intro rj hm r hr
        subst hr
        have := getElem_of_mem_enum hm
        rw [hx] at this
        cases this
    · intro i hi _
      obtain ⟨t, ht, hti⟩ := List.mem_map.mp hi
      refine ⟨by omega, ?_⟩
      intro r hr
      rw [hx] at hr
      cases hr
  · obtain ⟨hb2, _, _⟩ := writeAux_state conv remap
      ((List.range (conv.length - x - 1)).map (fun t => x + 1 + t))
      (b1 ++ conv.getD x [] ++ [0])
      (setUsedBy remap.enum x f1 (o1.set x (f1 : Int)))
      (f1 + (conv.getD x []).length + 1)
    rw [hb2, hb1]
    simp [List.append_assoc]

/-- Helper: an absorbed string's final offset is its representative's
offset plus its recorded start offset. -/
theorem write_string_table_absorbed (conv : List ByteSeq)
    (remap : List (Option RemappedTranslationItem))
    (hlen : remap.length = conv.length)
    (x : Nat) (r : RemappedTranslationItem)
    (hx : remap[x]? = some (some r)) (hy : remap[r.str_index]? = some none) :
    (write_string_table conv remap).2[x]? =
      some (((emitted conv remap (List.range r.str_index)).length +
        r.str_start_offset : Nat) : Int) := by
  have hyn : r.str_index < conv.length := by
    rw [← hlen]
    exact (List.getElem?_eq_some.mp hy).1
  have hxn : x < conv.length := by
    rw [← hlen]
    exact (List.getElem?_eq_some.mp hx).1
  have hsplit := range_split conv.length r.str_index hyn
  unfold write_string_table
  rw [hsplit, writeAux_append]
  rcases hst1 : writeAux conv remap (List.range r.str_index)
      ([], List.replicate conv.length (-1), 0) with ⟨b1, o1, f1⟩
  obtain ⟨hb1, hf1, ho1len⟩ := writeAux_state conv remap (List.range r.str_index)
    [] (List.replicate conv.length (-1)) 0
  rw [hst1] at hb1 hf1 ho1len
  simp only at hb1 hf1 ho1len
  simp only [writeAux]
  rw [hy]
  dsimp only
  have huntouched := writeAux_offs_untouched conv remap
    ((List.range (conv.length - r.str_index - 1)).map (fun t => r.str_index + 1 + t))
    (b1 ++ conv.getD r.str_index [] ++ [0])
    (setUsedBy remap.enum r.str_index f1 (o1.set r.str_index (f1 : Int)))
    (f1 + (conv.getD r.str_index []).length + 1) x ?_
  · rw [huntouched]
    rw [setUsedBy_get_of_mem remap.enum r.str_index f1 _ x r
      (mem_enum_of_getElem hx) (List.nodup_enum_map_fst remap) rfl ?_]
    · rw [hf1, Nat.zero_add]
    · rw [List.length_set, ho1len, List.length_replicate, ← hlen]
      exact (List.getElem?_eq_some.mp hx).1
  · intro i hi hrepi
    obtain ⟨t, ht, hti⟩ := List.mem_map.mp hi
    constructor
    · intro hix
      rw [hix, hx] at hrepi
      cases hrepi
    · intro r' hr'
      rw [hx] at hr'
      injection hr' with hr'
      injection hr' with hr'
      rw [← hr']
      omega

/-- Helper: inverting a successful `Option` bind. -/
theorem option_bind_eq_some {α β : Type} {m : Option α} {k : α → Option β} {r : β}
    (h : (m >>= k) = some r) : ∃ a, m = some a ∧ k a = some r := by
  cases m with
  | none => simp at h
  | some a => exact ⟨a, rfl, h⟩

/-- Helper: a successful `mapM` over `Option` is index-parallel to its
input. -/
theorem mapM_option_inv {α β : Type} (f : α → Option β) :
    ∀ (l : List α) (out : List β), l.mapM f = some out →
      out.length = l.length ∧
      ∀ (i : Nat) (x : α), l[i]? = some x → ∃ y, out[i]? = some y ∧ f x = some y := by
  intro l
  induction l with
  | nil =>
    intro out h
    rw [List.mapM_nil] at h
    cases h
    exact ⟨rfl, by intro i x hx; simp at hx⟩
  | cons a l ih =>
    intro out h
    rw [List.mapM_cons] at h
    obtain ⟨b, hb, h2⟩ := option_bind_eq_some h
    obtain ⟨bs, hbs, h3⟩ := option_bind_eq_some h2
    simp only [pure, Option.some.injEq] at h3
    subst h3
    obtain ⟨hlen, hall⟩ := ih bs hbs
    refine ⟨by simp [hlen], ?_⟩
    intro i x hx
    cases i with
    | zero =>
      simp only [List.getElem?_cons_zero, Option.some.injEq] at hx
      subst hx
      exact ⟨b, List.getElem?_cons_zero, hb⟩
    | succ i =>
      simp only [List.getElem?_cons_succ] at hx ⊢
      exact hall i x hx

/-- Helper: a table whose byte codes avoid 0x00 only encodes strings to
0x00-free byte sequences. -/
theorem encodeSymbols_zero_free (table : Symbol → Option ByteSeq)
    (hz : ∀ s bs, table s = some bs → (0 : Nat) ∉ bs) :
    ∀ (text : List Symbol) (e : ByteSeq), encodeSymbols table text = some e →
      (0 : Nat) ∉ e := by
  intro text
  induction text with
  | nil =>
    intro e h
    simp only [encodeSymbols, Option.some.injEq] at h
    subst h
    simp
  | cons c rest ih =>
    intro e h
    simp only [encodeSymbols] at h
    obtain ⟨b, hb, h2⟩ := option_bind_eq_some h
    obtain ⟨rr, hrr, h3⟩ := option_bind_eq_some h2
    simp only [pure, Option.some.injEq] at h3
    subst h3
    intro hmem
    rcases List.mem_append.mp hmem with hm | hm
    · exact hz c b hb hm
    · exact ih rr hrr hm

/-- Helper: reading a 0x00-free run followed by a terminator. -/
theorem takeWhile_append_zero (xs ys : ByteSeq) (h : (0 : Nat) ∉ xs) :
    ((xs ++ 0 :: ys).takeWhile (fun b => b != 0)) = xs := by
  induction xs with
  | nil => simp
  | cons a as ih =>
    have ha : (a != 0) = true := by
      simp only [bne_iff_ne, ne_eq]
      intro haz
      exact h (by rw [haz]; exact List.mem_cons_self _ _)
    simp only [List.cons_append, List.takeWhile_cons, ha, if_true]
    rw [ih (fun hm => h (List.mem_cons_of_mem _ hm))]

/-- Helper: dropping a prefix by its exact length. -/
theorem drop_length_append {α : Type} (l1 l2 : List α) (s : Nat)
    (h : s = l1.length) : (l1 ++ l2).drop s = l2 := by
  rw [h, List.drop_left]

/-- C10: on every input on which the suffix-merge scan completes,
absorption is one level deep: a string recorded as absorbed into a
representative points at a string that is itself not absorbed — and
consequently every string receives a non-negative recorded offset. -/
theorem compact_absorption_one_level (table : Symbol → Option ByteSeq)
    (strs : List (List Symbol)) (conv : List ByteSeq)
    (remap : List (Option RemappedTranslationItem))
    (hcr : compactRemap table strs = some (conv, remap)) :
    (∀ (x : Nat) (r : RemappedTranslationItem), remap[x]? = some (some r) →
      remap[r.str_index]? = some none) ∧
    (∀ (blob : ByteSeq) (offs : List Int),
      compact table strs = some (blob, offs) →
      ∀ x, x < strs.length → ∃ k : Nat, offs[x]? = some ((k : Nat) : Int)) := by
  have hcr0 := hcr
  unfold compactRemap at hcr0
  obtain ⟨conv', hconv', h2⟩ := option_bind_eq_some hcr0
  obtain ⟨remap', hremap', h3⟩ := option_bind_eq_some h2
  simp only [pure, Option.some.injEq, Prod.mk.injEq] at h3
  obtain ⟨hcx, hrx2⟩ := h3
  subst hcx
  subst hrx2
  obtain ⟨hclen, hcall⟩ := mapM_option_inv _ strs conv' hconv'
  obtain ⟨hrlen, hrspec⟩ := str_remapping_spec conv' remap' hremap'
  constructor
  · intro x r hx
    obtain ⟨cx, cy, _, _, _, _, _, hone⟩ := hrspec x r hx
    exact hone
  · intro blob offs hcomp x hxlt
    unfold compact at hcomp
    obtain ⟨cr, hcr2, h4⟩ := option_bind_eq_some hcomp
    rw [hcr] at hcr2
    injection hcr2 with hcr2
    subst hcr2
    simp only [pure, Option.some.injEq] at h4
    cases hrx : remap'[x]? with
    | none =>
      exfalso
      have := List.getElem?_eq_none_iff.mp hrx
      omega
    | some v =>
      cases v with
      | none =>
        obtain ⟨ho, _⟩ := write_string_table_rep conv' remap' hrlen x hrx
        rw [h4] at ho
        simp only at ho
        exact ⟨_, ho⟩
      | some r =>
        obtain ⟨cx, cy, _, _, _, _, _, hone⟩ := hrspec x r hrx
        have ho := write_string_table_absorbed conv' remap' hrlen x r hrx hone
        rw [h4] at ho
        simp only at ho
        exact ⟨_, ho⟩

/-- C10 witness: for `["ab", "cdab", "xyz"]`, string 0 is absorbed into
string 1, which is itself unabsorbed, and string 0's recorded offset is
the non-negative 2. -/
theorem compact_absorption_one_level_witness :
    ([some ⟨1, 2⟩, none, none] : List (Option RemappedTranslationItem))[
      ((⟨1, 2⟩ : RemappedTranslationItem)).str_index]? = some none ∧
    ∃ k : Nat, ([2, 0, 5] : List Int)[0]? = some ((k : Nat) : Int) :=
  have T := compact_absorption_one_level asciiTable
    [[97, 98], [99, 100, 97, 98], [120, 121, 122]]
    [[97, 98], [99, 100, 97, 98], [120, 121, 122]]
    [some ⟨1, 2⟩, none, none] (by decide)
  ⟨T.1 0 ⟨1, 2⟩ (by decide),
   T.2 [99, 100, 97, 98, 0, 120, 121, 122, 0] [2, 0, 5] (by decide) 0 (by decide)⟩

/-- C1 (amended): for every input string list and every byte-code map
under which each string encodes without error, provided additionally
that no byte code contains the byte 0x00 and that the compaction
completes (the suffix-merge scan stays in bounds), the produced blob and
offsets satisfy the reading property: for every string `i`, reading the
blob from `offsets[i]` up to (but not including) the next 0x00 byte
yields exactly the encoded byte sequence of string `i`. -/
theorem compact_read_correct (table : Symbol → Option ByteSeq)
    (strs : List (List Symbol))
    (hz : ∀ s bs, table s = some bs → (0 : Nat) ∉ bs)
    (blob : ByteSeq) (offs : List Int)
    (hok : compact table strs = some (blob, offs))
    (i : Nat) (e : ByteSeq)
    (he : convert_string_bytes table (strs.getD i []) = some e)
    (hi : i < strs.length) :
    ∃ k : Nat, offs[i]? = some ((k : Nat) : Int) ∧
      (blob.drop k).takeWhile (fun b => b != 0) = e := by
  unfold compact at hok
  obtain ⟨cr, hcr, h4⟩ := option_bind_eq_some hok
  obtain ⟨conv, remap⟩ := cr
  simp only [pure, Option.some.injEq] at h4
  unfold compactRemap at hcr
  obtain ⟨conv', hconv', h2⟩ := option_bind_eq_some hcr
  obtain ⟨remap', hremap', h3⟩ := option_bind_eq_some h2
  simp only [pure, Option.some.injEq, Prod.mk.injEq] at h3
  obtain ⟨hcx0, hrx0⟩ := h3
  subst hcx0
  subst hrx0
  obtain ⟨hclen, hcall⟩ := mapM_option_inv _ strs conv' hconv'
  obtain ⟨hrlen, hrspec⟩ := str_remapping_spec conv' remap' hremap'
  have hsi : strs[i]? = some (strs.getD i []) := by
    rw [List.getElem?_eq_getElem hi]
    rw [List.getD_eq_getElem?_getD, List.getElem?_eq_getElem hi]
    rfl
  obtain ⟨ci, hci, hfci⟩ := hcall i (strs.getD i []) hsi
  rw [he] at hfci
  injection hfci with hfci
  subst hfci
  have hzero : ∀ (j : Nat) (cj : ByteSeq), conv'[j]? = some cj → (0 : Nat) ∉ cj := by
    intro j cj hcj
    have hj : j < conv'.length := (List.getElem?_eq_some.mp hcj).1
    have hjs : j < strs.length := by omega
    obtain ⟨cj', hcj', hfcj⟩ := hcall j (strs.getD j [])
      (by rw [List.getElem?_eq_getElem hjs, List.getD_eq_getElem?_getD,
        List.getElem?_eq_getElem hjs]; rfl)
    rw [hcj] at hcj'
    injection hcj' with hcj'
    subst hcj'
    unfold convert_string_bytes at hfcj
    exact encodeSymbols_zero_free table hz _ _ hfcj
  cases hrx : remap'[i]? with
  | none =>
    exfalso
    have := List.getElem?_eq_none_iff.mp hrx
    omega
  | some v =>
    cases v with
    | none =>
      obtain ⟨ho, hblob⟩ := write_string_table_rep conv' remap' hrlen i hrx
      rw [h4] at ho hblob
      simp only at ho hblob
      refine ⟨(emitted conv' remap' (List.range i)).length, ho, ?_⟩
      rw [hblob, List.append_assoc, List.drop_left]
      have hgd : conv'.getD i [] = e := by
        rw [List.getD_eq_getElem?_getD, hci]
        rfl
      rw [hgd, List.append_assoc]
      exact takeWhile_append_zero e _ (hzero i e hci)
    | some r =>
      obtain ⟨cx, cy, hcx, hcy, hoff, hlele, hdrop, hone⟩ := hrspec i r hrx
      rw [hci] at hcx
      injection hcx with hcx
      subst hcx
      have ho := write_string_table_absorbed conv' remap' hrlen i r hrx hone
      rw [h4] at ho
      simp only at ho
      obtain ⟨_, hblob⟩ := write_string_table_rep conv' remap' hrlen r.str_index hone
      rw [h4] at hblob
      simp only at hblob
      refine ⟨(emitted conv' remap' (List.range r.str_index)).length +
        r.str_start_offset, ho, ?_⟩
      rw [hblob]
      have hgd : conv'.getD r.str_index [] = cy := by
        rw [List.getD_eq_getElem?_getD, hcy]
        rfl
      rw [hgd, List.append_assoc, ← List.drop_drop, List.drop_left]
      have hsplity : cy = cy.take r.str_start_offset ++ e := by
        conv_lhs => rw [← List.take_append_drop r.str_start_offset cy]
        rw [hdrop]
      have hslen : r.str_start_offset = (cy.take r.str_start_offset).length := by
        rw [List.length_take]
        omega
      conv_lhs => rw [hsplity, List.append_assoc, List.append_assoc,
        drop_length_append _ _ _ hslen]
      exact takeWhile_append_zero e _ (hzero i e hci)

/-- A byte-code map none of whose codes contains a 0x00 byte: every
positive symbol is its own single byte. -/
def posTable : Symbol → Option ByteSeq :=
  fun s => if 0 < s then some [s] else none

/-- C1 witness: on `["ab", "cdab", "xyz"]` under `posTable`, string 0
(`"ab"`) has offset 2 and reading the blob there up to the next 0x00
reproduces its encoding `[97, 98]`. -/
theorem compact_read_correct_witness :
    ∃ k : Nat, ([2, 0, 5] : List Int)[0]? = some ((k : Nat) : Int) ∧
      (([99, 100, 97, 98, 0, 120, 121, 122, 0] : ByteSeq).drop k).takeWhile
        (fun b => b != 0) = [97, 98] :=
  compact_read_correct posTable [[97, 98], [99, 100, 97, 98], [120, 121, 122]]
    (by
      intro s bs h
      by_cases h0 : 0 < s
      · simp only [posTable, if_pos h0, Option.some.injEq] at h
        subst h
        intro hmem
        simp only [List.mem_singleton] at hmem
        cases hmem
        exact Nat.lt_irrefl 0 h0
      · simp [posTable, if_neg h0] at h)
    [99, 100, 97, 98, 0, 120, 121, 122, 0] [2, 0, 5] (by decide)
    0 [97, 98] (by decide) (by decide)

end MakeTranslation
